import Mathlib

/-!
Verification of the monorepo package-graph core
(`packages/cli/src/lib/monorepo/PackageGraph.ts`).

The development shallowly embeds the three operations of the core:

* `fromPackages` — graph construction from a flat list of package
  descriptors (`PackageGraph.fromPackages`);
* `collectPackageNames` — generic worklist reachability traversal
  (`PackageGraph.collectPackageNames`);
* `listChangedPackages` — changed-package detection by a sorted merge
  pass (`PackageGraph.listChangedPackages`).

Modelling conventions:

* JavaScript strings are compared with the code-unit lexicographic
  order of `<`; this is embedded as `strLtB` over `String.data`
  (scalar-value lexicographic order, which agrees with the JS order on
  the ASCII paths involved).  `String.prototype.startsWith` is embedded
  as `strStarts`.
* `Array.prototype.sort()` on strings returns the unique permutation
  that is sorted for this total order, embedded as
  `List.insertionSort strLe`.
* A JS `Map` is embedded as an association list in key insertion
  order; `Map.prototype.set` (`mapSet`) overwrites the value of an
  existing key in place and otherwise appends, and `Map.prototype.get`
  (`mapGet`) finds the first entry with the key.
* The values of the five per-node dependency maps are references to
  sibling nodes of the same graph.  Since the graph keys nodes by their
  unique name and every stored reference is the result of
  `graph.get(depName)`, a reference is embedded as the referenced
  package name.
* `listChangedPackages` obtains its changed-file list from an external
  git collaborator and relativizes package directories against the
  workspace root (`relativePath(paths.targetRoot, pkg.dir)` followed by
  posix normalization).  Both are environment-provided inputs; the
  embedding takes the changed files as an argument and takes `dir`
  fields to already hold the root-relative normalized posix path, which
  is the data shape the collaborators contract to supply.
* Thrown `Error`s become `Except` values whose constructors carry the
  data interpolated into the corresponding message string.
-/

/-- Code-unit lexicographic strict order on character lists: the order
JavaScript's `<` uses on strings.  A proper nonempty extension is
greater; otherwise the first differing character decides. -/
def listLtB : List Char → List Char → Bool
  | _, [] => false
  | [], _ :: _ => true
  | a :: as, b :: bs => if a < b then true else if b < a then false else listLtB as bs

/-- JavaScript string `<`. -/
def strLtB (a b : String) : Bool := listLtB a.data b.data

/-- The relation `a ≤ b` for JavaScript strings, i.e. `¬ (b < a)`. -/
def strLe (a b : String) : Prop := strLtB b a = false

instance : DecidableRel strLe := fun a b => instDecidableEqBool (strLtB b a) false

/-- Character-list prefix test. -/
def isPre : List Char → List Char → Bool
  | [], _ => true
  | _ :: _, [] => false
  | a :: as, b :: bs => a == b && isPre as bs

/-- JavaScript `s.startsWith(pre)`. -/
def strStarts (s pre : String) : Bool := isPre pre.data s.data

/-- The dependency-name information of a package manifest that the
graph builder reads: the `name` field and the key lists of the three
dependency records (`Object.keys` of `dependencies`, `devDependencies`
and `optionalDependencies`; an absent record contributes the empty
list, matching `|| {}` in the source).  The versions mapped to by the
keys are never read by this core and are omitted. -/
structure PackageJson where
  name : String
  dependencies : List String
  devDependencies : List String
  optionalDependencies : List String
deriving DecidableEq, Repr

/-- A package descriptor: a directory and its manifest. -/
structure Package where
  dir : String
  packageJson : PackageJson
deriving DecidableEq, Repr

/-- A node of the package graph.  The five dependency maps are JS
`Map`s from dependency name to a reference to the dependency's node,
embedded as association lists whose values are the referenced package
names (see module conventions). -/
structure PackageGraphNode where
  name : String
  dir : String
  packageJson : PackageJson
  allLocalDependencies : List (String × String)
  publishedLocalDependencies : List (String × String)
  localDependencies : List (String × String)
  localDevDependencies : List (String × String)
  localOptionalDependencies : List (String × String)
deriving DecidableEq, Repr

/-- JS `Map.prototype.get`: first entry with the given key. -/
def mapGet {α : Type} (m : List (String × α)) (k : String) : Option α :=
  (m.find? (fun p => p.1 == k)).map (fun p => p.2)

/-- JS `Map.prototype.set`: overwrite the value of an existing key in
place, otherwise append a new entry. -/
def mapSet {α : Type} (m : List (String × α)) (k : String) (v : α) : List (String × α) :=
  if m.any (fun p => p.1 == k) then
    m.map (fun p => if p.1 == k then (k, v) else p)
  else
    m ++ [(k, v)]

/-- The `PackageGraph` `Map`, in key insertion order.  `graph.get`. -/
def graphGet (g : List PackageGraphNode) (name : String) : Option PackageGraphNode :=
  g.find? (fun node => node.name == name)

/-- The error of `PackageGraph.fromPackages`:
`Duplicate package name '<name>' at <dir> and <existingDir>`. -/
inductive BuildError where
  | duplicatePackageName (name dir existingDir : String)
deriving DecidableEq, Repr

/-- First pass of `fromPackages`: the node created for one package,
keyed by its name, with all five dependency maps empty. -/
def newNode (pkg : Package) : PackageGraphNode :=
  { name := pkg.packageJson.name
    dir := pkg.dir
    packageJson := pkg.packageJson
    allLocalDependencies := []
    publishedLocalDependencies := []
    localDependencies := []
    localDevDependencies := []
    localOptionalDependencies := [] }

/-- First pass of `fromPackages` (continued): walk the descriptor
list, adding a node per package; fail on a duplicate name. -/
def addPackages (g : List PackageGraphNode) :
    List Package → Except BuildError (List PackageGraphNode)
  | [] => .ok g
  | pkg :: rest =>
    let name := pkg.packageJson.name
    match graphGet g name with
    | some existingPkg => .error (.duplicatePackageName name pkg.dir existingPkg.dir)
    | none => addPackages (g ++ [newNode pkg]) rest

/-- One iteration of the `dependencies` loop of the second pass: if the
dependency name resolves in the graph, record it in
`allLocalDependencies`, `publishedLocalDependencies` and
`localDependencies`. -/
def depStep (g : List PackageGraphNode) (n : PackageGraphNode) (depName : String) :
    PackageGraphNode :=
  match graphGet g depName with
  | some _ =>
    { n with
      allLocalDependencies := mapSet n.allLocalDependencies depName depName,
      publishedLocalDependencies := mapSet n.publishedLocalDependencies depName depName,
      localDependencies := mapSet n.localDependencies depName depName }
  | none => n

/-- One iteration of the `devDependencies` loop: record in
`allLocalDependencies` and `localDevDependencies`. -/
def devDepStep (g : List PackageGraphNode) (n : PackageGraphNode) (depName : String) :
    PackageGraphNode :=
  match graphGet g depName with
  | some _ =>
    { n with
      allLocalDependencies := mapSet n.allLocalDependencies depName depName,
      localDevDependencies := mapSet n.localDevDependencies depName depName }
  | none => n

/-- One iteration of the `optionalDependencies` loop: record in
`allLocalDependencies`, `publishedLocalDependencies` and
`localOptionalDependencies`. -/
def optDepStep (g : List PackageGraphNode) (n : PackageGraphNode) (depName : String) :
    PackageGraphNode :=
  match graphGet g depName with
  | some _ =>
    { n with
      allLocalDependencies := mapSet n.allLocalDependencies depName depName,
      publishedLocalDependencies := mapSet n.publishedLocalDependencies depName depName,
      localOptionalDependencies := mapSet n.localOptionalDependencies depName depName }
  | none => n

/-- Second pass of `fromPackages` for one node: iterate the three raw
dependency-name lists of the node's own manifest, populating the five
maps.  Lookups consult the graph of the first pass (only the existence
and the name of the target node are used, both unchanged by the second
pass). -/
def populateNode (g : List PackageGraphNode) (node : PackageGraphNode) : PackageGraphNode :=
  let n1 := node.packageJson.dependencies.foldl (depStep g) node
  let n2 := node.packageJson.devDependencies.foldl (devDepStep g) n1
  node.packageJson.optionalDependencies.foldl (optDepStep g) n2

/-- The whole of `PackageGraph.fromPackages`: build the node map, then populate the
local dependency structure of every node. -/
def fromPackages (packages : List Package) : Except BuildError (List PackageGraphNode) :=
  (addPackages [] packages).map (fun g => g.map (populateNode g))

/-- Cursor advance over the suffix of the file list that starts at the
cursor: increment the cursor while the file there satisfies `p`.  The
loop `while (searchIndex < changedFiles.length && p(changedFiles[searchIndex]))`
walks exactly this suffix. -/
def skipWhileAux (p : String → Bool) : List String → Nat → Nat
  | [], i => i
  | f :: rest, i => if p f then skipWhileAux p rest (i + 1) else i

/-- Advance the cursor past changed files strictly below the package
dir: `while (searchIndex < changedFiles.length && changedFiles[searchIndex] < packageDir)`. -/
def skipBelow (files : List String) (packageDir : String) (i : Nat) : Nat :=
  skipWhileAux (fun f => strLtB f packageDir) (files.drop i) i

/-- Advance the cursor past changed files of the matched package:
`while (changedFiles[searchIndex]?.startsWith(packageDir))`. -/
def skipSamePre (files : List String) (packageDir : String) (i : Nat) : Nat :=
  skipWhileAux (fun f => strStarts f packageDir) (files.drop i) i

/-- The test `changedFiles[searchIndex]?.startsWith(packageDir)`: false past the
end of the list. -/
def fileAtStarts (files : List String) (i : Nat) (packageDir : String) : Bool :=
  match files[i]? with
  | some f => strStarts f packageDir
  | none => false

/-- The merge loop of `listChangedPackages`: for each package dir in
sorted order, skip files below it, test the file at the cursor for the
prefix, and on a match emit the package and consume its remaining
files. -/
def matchChangedGo (files : List String) (dirMap : List (String × PackageGraphNode)) :
    List String → Nat → List PackageGraphNode
  | [], _ => []
  | packageDir :: restDirs, i =>
    let j := skipBelow files packageDir i
    if fileAtStarts files j packageDir then
      (match mapGet dirMap packageDir with
       | some pkg => [pkg]
       | none => []) ++ matchChangedGo files dirMap restDirs (skipSamePre files packageDir (j + 1))
    else
      matchChangedGo files dirMap restDirs j

/-- The merge pass `PackageGraph.listChangedPackages`: map each node to its
root-relative dir suffixed with the posix separator, sort the changed
files and the dir prefixes, and run the single merge pass.  The changed
files, produced externally by git, are taken as an argument. -/
def listChangedPackages (g : List PackageGraphNode) (changedFiles : List String) :
    List PackageGraphNode :=
  let dirMap := g.foldl (fun m pkg => mapSet m (pkg.dir ++ "/") pkg) []
  let packageDirs := dirMap.map (fun p => p.1)
  matchChangedGo (List.insertionSort strLe changedFiles) dirMap
    (List.insertionSort strLe packageDirs) 0

/-- A graph node for a package with no dependencies, used by the
concrete test graphs of the changed-package claims (which read only the
`dir` field). -/
def node0 (name dir : String) : PackageGraphNode :=
  { name := name
    dir := dir
    packageJson :=
      { name := name
        dependencies := []
        devDependencies := []
        optionalDependencies := [] }
    allLocalDependencies := []
    publishedLocalDependencies := []
    localDependencies := []
    localDevDependencies := []
    localOptionalDependencies := [] }

/-- Package `root` of the nested-package check, at directory `pkg/`. -/
def nestRoot : PackageGraphNode := node0 "root" "pkg"

/-- Package `child` of the nested-package check, at directory `pkg/sub/`. -/
def nestChild : PackageGraphNode := node0 "child" "pkg/sub"

/-- Package `a` of the changed-package examples, at directory `pkg-a/`. -/
def pkgNodeA : PackageGraphNode := node0 "a" "pkg-a"

/-- Package `b` of the changed-package examples, at directory `pkg-b/`. -/
def pkgNodeB : PackageGraphNode := node0 "b" "pkg-b"

/-- Package `ab` of the prefix-collision check, at directory `pkg-ab/`. -/
def pkgNodeAB : PackageGraphNode := node0 "ab" "pkg-ab"

/-- The names keying the graph `Map`, in insertion order. -/
def graphNames (g : List PackageGraphNode) : List String :=
  g.map (fun node => node.name)

/-- The error of `PackageGraph.collectPackageNames`:
`Package '<name>' not found`. -/
inductive CollectError where
  | packageNotFound (name : String)
deriving DecidableEq, Repr

/-- The worklist loop of `collectPackageNames`.  `searchNames` is the
JS array viewed from its end: the head of the list is the element
`pop()` removes, and `push(...collected)` prepends the reversed
collected names (the last pushed name is popped first).  Alongside the
`targets` set the loop accumulates `lg`, the list of names for which
`collectFn` has been invoked, in invocation order; the source does not
materialize this list, it is ghost instrumentation used to state how
often `collectFn` runs. -/
def collectGo (g : List PackageGraphNode)
    (collectFn : PackageGraphNode → Option (List String))
    (targets : Finset String) (searchNames : List String) (lg : List String) :
    Except CollectError (Finset String × List String) :=
  match searchNames with
  | [] => .ok (targets, lg)
  | name :: rest =>
    if hIn : name ∈ targets then
      collectGo g collectFn targets rest lg
    else
      match h : graphGet g name with
      | none => .error (.packageNotFound name)
      | some node =>
        collectGo g collectFn (insert name targets)
          (((collectFn node).getD []).reverse ++ rest) (lg ++ [name])
termination_by ((((graphNames g).toFinset \ targets).card : Nat), searchNames.length)
decreasing_by
  · apply Prod.Lex.right
    simp
  · apply Prod.Lex.left
    have hng : node ∈ g := List.mem_of_find?_eq_some h
    have hnn : node.name = name := by
      have := List.find?_some h
      simpa using this
    have hmem : name ∈ (graphNames g).toFinset := by
      rw [List.mem_toFinset]
      exact List.mem_map.mpr ⟨node, hng, hnn⟩
    apply Finset.card_lt_card
    rw [Finset.ssubset_iff_of_subset
      (Finset.sdiff_subset_sdiff (Finset.Subset.refl _) (Finset.subset_insert name targets))]
    exact ⟨name, Finset.mem_sdiff.mpr ⟨hmem, hIn⟩, by simp⟩

/-- The traversal `PackageGraph.collectPackageNames` together with its ghost
invocation log: seed the worklist with a copy of `startingPackageNames`
(the head of the embedded list is the name popped first, i.e. the last
element of the JS array) and run the loop with an empty target set. -/
def collectPackageNamesAux (g : List PackageGraphNode)
    (collectFn : PackageGraphNode → Option (List String))
    (startingPackageNames : List String) :
    Except CollectError (Finset String × List String) :=
  collectGo g collectFn ∅ startingPackageNames.reverse []

/-- The traversal result of `PackageGraph.collectPackageNames`: the returned set of package
names, with errors propagated. -/
def collectPackageNames (g : List PackageGraphNode)
    (collectFn : PackageGraphNode → Option (List String))
    (startingPackageNames : List String) :
    Except CollectError (Finset String) :=
  (collectPackageNamesAux g collectFn startingPackageNames).map (fun p => p.1)

/-- A name is encountered by the traversal if it is a start name or is
yielded by `collectFn` on the node of an encountered name that resolves
in the graph. -/
inductive Enc (g : List PackageGraphNode)
    (collectFn : PackageGraphNode → Option (List String))
    (startNames : List String) : String → Prop
  | start {n : String} : n ∈ startNames → Enc g collectFn startNames n
  | step {m n : String} {node : PackageGraphNode} :
      Enc g collectFn startNames m → graphGet g m = some node →
      n ∈ (collectFn node).getD [] → Enc g collectFn startNames n

/-- A package descriptor literal: directory, name, and the three
dependency-name lists. -/
def mkPackage (dir name : String) (deps dev opt : List String) : Package :=
  { dir := dir
    packageJson :=
      { name := name
        dependencies := deps
        devDependencies := dev
        optionalDependencies := opt } }

/-- Descriptors with a duplicated name `x` at two directories, used to
exercise the duplicate-name failure. -/
def dupPackages : List Package :=
  [mkPackage "packages/x1" "x" [] [] [], mkPackage "packages/x2" "x" [] [] []]

/-- Descriptors with pairwise-distinct names and a mix of local,
external, dev and optional dependencies, used to exercise successful
construction. -/
def egPackages : List Package :=
  [mkPackage "packages/p1" "p1" ["p2", "ext"] ["p3", "p2"] ["p2", "gone"],
   mkPackage "packages/p2" "p2" ["p1"] [] [],
   mkPackage "packages/p3" "p3" [] ["ext"] []]

/-- The graph built from `egPackages` (construction succeeds on it). -/
def egGraph : List PackageGraphNode :=
  match fromPackages egPackages with
  | .ok g => g
  | .error _ => []

/-- The node of `p1` in `egGraph`. -/
def egNodeP1 : PackageGraphNode :=
  (graphGet egGraph "p1").getD (node0 "" "")

/-- A cyclic two-package graph (`a` and `b` depend on each other),
used to exercise traversal termination on cycles. -/
def cycGraph : List PackageGraphNode :=
  match fromPackages
    [mkPackage "packages/a" "a" ["b"] [] [], mkPackage "packages/b" "b" ["a"] [] []] with
  | .ok g => g
  | .error _ => []

/-- An expand function following `allLocalDependencies` keys, the
typical caller-supplied `collectFn`. -/
def expandAll (node : PackageGraphNode) : Option (List String) :=
  some (node.allLocalDependencies.map (fun p => p.1))

/-- An expand function yielding the raw manifest dependency names,
which need not resolve in the graph. -/
def expandRaw (node : PackageGraphNode) : Option (List String) :=
  some node.packageJson.dependencies

/-- A one-package graph whose raw manifest names a missing package,
used to exercise the lazily validated not-found failure. -/
def missGraph : List PackageGraphNode :=
  match fromPackages [mkPackage "packages/a" "a" ["missing"] [] []] with
  | .ok g => g
  | .error _ => []

/-- The node of `a` in `missGraph`. -/
def missNodeA : PackageGraphNode :=
  (graphGet missGraph "a").getD (node0 "" "")

/-- The effect of one populate loop on one map: record every
dependency name of `l` that resolves in `g`.  Each of the three loops
of the second pass acts as `addIfLocal` on each map it touches. -/
def addIfLocal (g : List PackageGraphNode) (m : List (String × String)) (l : List String) :
    List (String × String) :=
  l.foldl (fun m' d => if (graphGet g d).isSome then mapSet m' d d else m') m

/-! ### Order properties of the JavaScript string comparison -/

theorem listLtB_nil_right (x : List Char) : listLtB x [] = false := by
  cases x <;> rfl

theorem listLtB_asymm : ∀ {x y : List Char}, listLtB x y = true → listLtB y x = false := by
  intro x
  induction x with
  | nil =>
    intro y h
    exact listLtB_nil_right y
  | cons a as ih =>
    intro y h
    cases y with
    | nil => simp [listLtB] at h
    | cons b bs =>
      rcases lt_trichotomy a b with hab | hab | hab
      · have hba : ¬ b < a := lt_asymm hab
        simp [listLtB, hab, hba]
      · subst hab
        simp [listLtB, lt_irrefl] at h ⊢
        exact ih h
      · have hnab : ¬ a < b := lt_asymm hab
        simp [listLtB, hnab, hab] at h

theorem listLtB_antisymm : ∀ {x y : List Char},
    listLtB x y = false → listLtB y x = false → x = y := by
  intro x
  induction x with
  | nil =>
    intro y h1 h2
    cases y with
    | nil => rfl
    | cons b bs => simp [listLtB] at h1
  | cons a as ih =>
    intro y h1 h2
    cases y with
    | nil => simp [listLtB] at h2
    | cons b bs =>
      rcases lt_trichotomy a b with hab | hab | hab
      · simp [listLtB, hab] at h1
      · subst hab
        simp [listLtB, lt_irrefl] at h1 h2
        rw [ih h1 h2]
      · simp [listLtB, hab, lt_asymm hab] at h2

theorem listLtB_le_trans : ∀ {x y z : List Char},
    listLtB y x = false → listLtB z y = false → listLtB z x = false := by
  intro x
  induction x with
  | nil =>
    intro y z h1 h2
    exact listLtB_nil_right z
  | cons a as ih =>
    intro y z h1 h2
    cases y with
    | nil => simp [listLtB] at h1
    | cons b bs =>
      cases z with
      | nil => simp [listLtB] at h2
      | cons c cs =>
        rcases lt_trichotomy b a with hba | hba | hba
        · simp [listLtB, hba] at h1
        · subst hba
          simp only [listLtB, lt_irrefl, if_false] at h1
          rcases lt_trichotomy c b with hcb | hcb | hcb
          · simp [listLtB, hcb] at h2
          · subst hcb
            simp only [listLtB, lt_irrefl, if_false] at h2 ⊢
            exact ih h1 h2
          · simp [listLtB, lt_asymm hcb, hcb]
        · rcases lt_trichotomy c b with hcb | hcb | hcb
          · simp [listLtB, hcb] at h2
          · subst hcb
            simp [listLtB, lt_asymm hba, hba]
          · have hac : a < c := lt_trans hba hcb
            simp [listLtB, lt_asymm hac, hac]

theorem strEq_of_data_eq {a b : String} (h : a.data = b.data) : a = b :=
  String.ext h

instance : IsTotal String strLe := by
  constructor
  intro a b
  cases h : strLtB b a with
  | false => exact Or.inl h
  | true => exact Or.inr (listLtB_asymm h)

instance : IsTrans String strLe := by
  constructor
  intro a b c h1 h2
  exact listLtB_le_trans h1 h2

theorem strLtB_of_le_ne {a b : String} (h : strLe a b) (hne : a ≠ b) : strLtB a b = true := by
  cases hab : strLtB a b with
  | true => rfl
  | false => exact absurd (strEq_of_data_eq (listLtB_antisymm hab h)) hne

/-! ### JS `Map` lemmas -/

theorem mapGet_nil {α : Type} (k : String) : mapGet ([] : List (String × α)) k = none := rfl

theorem mapGet_map_ne {α : Type} (k j : String) (v : α) (hjk : j ≠ k) :
    ∀ t : List (String × α),
      mapGet (t.map (fun p => if p.1 == k then (k, v) else p)) j = mapGet t j := by
  intro t
  induction t with
  | nil => rfl
  | cons q t ih =>
    by_cases hq : q.1 = k
    · have h1 : ((k, v).1 == j) = false := by simp [Ne.symm hjk]
      have h2 : (q.1 == j) = false := by simp [hq, Ne.symm hjk]
      simp only [List.map_cons, if_pos (by simp [hq] : (q.1 == k) = true), mapGet,
        List.find?_cons, h1, h2] at ih ⊢
      exact ih
    · simp only [List.map_cons, if_neg (by simp [hq] : ¬ (q.1 == k) = true), mapGet,
        List.find?_cons] at ih ⊢
      cases hqj : (q.1 == j) with
      | true => rfl
      | false => exact ih

theorem mapGet_mapSet {α : Type} (m : List (String × α)) (k : String) (v : α) (j : String) :
    mapGet (mapSet m k v) j = if j = k then some v else mapGet m j := by
  induction m with
  | nil =>
    by_cases hjk : j = k
    · simp [mapSet, mapGet, List.find?_cons, hjk]
    · simp [mapSet, mapGet, List.find?_cons, hjk, Ne.symm hjk]
  | cons p t ih =>
    by_cases hp : p.1 = k
    · have hany : ((p :: t).any (fun q => q.1 == k)) = true := by simp [List.any_cons, hp]
      rw [mapSet, if_pos hany]
      by_cases hjk : j = k
      · subst hjk
        simp [mapGet, List.map_cons, List.find?_cons, hp]
      · simp only [List.map_cons, if_pos (by simp [hp] : (p.1 == k) = true)]
        have h1 : ((k, v).1 == j) = false := by simp [Ne.symm hjk]
        have h2 : (p.1 == j) = false := by simp [hp, Ne.symm hjk]
        simp only [mapGet, List.find?_cons, h1, h2, if_neg hjk]
        have := mapGet_map_ne k j v hjk t
        simpa [mapGet] using this
    · have hkey : ((p.1 == k)) = false := by simp [hp]
      cases ha : (t.any (fun q => q.1 == k)) with
      | true =>
        have hany : ((p :: t).any (fun q => q.1 == k)) = true := by
          simp [List.any_cons, ha]
        rw [mapSet, if_pos hany]
        rw [mapSet, if_pos ha] at ih
        simp only [List.map_cons, if_neg (by simp [hp] : ¬ (p.1 == k) = true)]
        cases hpj : (p.1 == j) with
        | true =>
          have hjk : j ≠ k := by
            intro hc
            subst hc
            exact hp (by simpa using hpj)
          simp [mapGet, List.find?_cons, hpj, hjk]
        | false =>
          simp only [mapGet, List.find?_cons, hpj]
          simpa [mapGet] using ih
      | false =>
        have hany : ((p :: t).any (fun q => q.1 == k)) = false := by
          simp [List.any_cons, ha, hp]
        rw [mapSet, if_neg (by simp [hany])]
        rw [mapSet, if_neg (by simp [ha])] at ih
        simp only [List.cons_append]
        cases hpj : (p.1 == j) with
        | true =>
          have hjk : j ≠ k := by
            intro hc
            subst hc
            exact hp (by simpa using hpj)
          simp [mapGet, List.find?_cons, hpj, hjk]
        | false =>
          simp only [mapGet, List.find?_cons, hpj]
          simpa [mapGet] using ih

theorem mapSet_keys_nodup {α : Type} (m : List (String × α)) (k : String) (v : α)
    (h : (m.map Prod.fst).Nodup) : ((mapSet m k v).map Prod.fst).Nodup := by
  unfold mapSet
  cases hany : m.any (fun p => p.1 == k) with
  | true =>
    rw [if_pos (by simp [hany])]
    have hkeys : (m.map (fun p => if p.1 == k then (k, v) else p)).map Prod.fst
        = m.map Prod.fst := by
      rw [List.map_map]
      apply List.map_congr_left
      intro p _
      by_cases hp : p.1 = k
      · simp [hp]
      · simp [hp]
    rw [hkeys]
    exact h
  | false =>
    rw [if_neg (by simp [hany])]
    rw [List.map_append]
    rw [List.nodup_append]
    refine ⟨h, by simp, ?_⟩
    intro x hx
    simp only [List.map_cons, List.map_nil, List.mem_singleton]
    intro hxk
    rcases List.mem_map.mp hx with ⟨p, hp, hpx⟩
    have hpk : (p.1 == k) = true := by rw [hpx, hxk]; simp
    have hc : m.any (fun q => q.1 == k) = true := List.any_eq_true.mpr ⟨p, hp, hpk⟩
    rw [hany] at hc
    cases hc

theorem mapSet_entries {α : Type} (P : String × α → Prop) (m : List (String × α))
    (k : String) (v : α) (hm : ∀ p ∈ m, P p) (hkv : P (k, v)) :
    ∀ p ∈ mapSet m k v, P p := by
  intro p hp
  unfold mapSet at hp
  split at hp
  · rcases List.mem_map.mp hp with ⟨q, hq, hqp⟩
    by_cases hqk : q.1 = k
    · simp only [hqk, beq_self_eq_true, if_pos] at hqp
      rw [← hqp]
      exact hkv
    · simp only [if_neg (by simp [hqk] : ¬ (q.1 == k) = true)] at hqp
      rw [← hqp]
      exact hm q hq
  · rcases List.mem_append.mp hp with hq | hq
    · exact hm p hq
    · rw [List.mem_singleton.mp hq]
      exact hkv

theorem dirMap_keys_nodup (g : List PackageGraphNode) :
    ∀ m0 : List (String × PackageGraphNode), (m0.map Prod.fst).Nodup →
      ((g.foldl (fun m pkg => mapSet m (pkg.dir ++ "/") pkg) m0).map Prod.fst).Nodup := by
  induction g with
  | nil => intro m0 h; exact h
  | cons pkg rest ih =>
    intro m0 h
    exact ih _ (mapSet_keys_nodup m0 (pkg.dir ++ "/") pkg h)

theorem dirMap_entries (g : List PackageGraphNode) :
    ∀ m0 : List (String × PackageGraphNode), (∀ p ∈ m0, p.1 = p.2.dir ++ "/") →
      ∀ p ∈ g.foldl (fun m pkg => mapSet m (pkg.dir ++ "/") pkg) m0, p.1 = p.2.dir ++ "/" := by
  induction g with
  | nil => intro m0 h; exact h
  | cons pkg rest ih =>
    intro m0 h
    exact ih _ (mapSet_entries _ m0 _ pkg h rfl)

theorem mapGet_some {α : Type} {m : List (String × α)} {j : String} {x : α}
    (h : mapGet m j = some x) : ∃ q ∈ m, q.1 = j ∧ q.2 = x := by
  unfold mapGet at h
  cases hf : m.find? (fun p => p.1 == j) with
  | none => rw [hf] at h; cases h
  | some q =>
    rw [hf] at h
    refine ⟨q, List.mem_of_find?_eq_some hf, ?_, ?_⟩
    · have := List.find?_some hf
      simpa using this
    · simpa using h

theorem filterMap_tail_sublist {α β : Type} (f : α → Option β) (d : α) (rest : List α) :
    List.Sublist (rest.filterMap f) ((d :: rest).filterMap f) := by
  rw [List.filterMap_cons]
  cases f d with
  | none => exact List.Sublist.refl _
  | some b => exact List.Sublist.cons b (List.Sublist.refl _)

theorem matchChangedGo_sublist (files : List String) (dm : List (String × PackageGraphNode)) :
    ∀ (dirs : List String) (i : Nat),
      List.Sublist (matchChangedGo files dm dirs i) (dirs.filterMap (fun d => mapGet dm d)) := by
  intro dirs
  induction dirs with
  | nil => intro i; exact List.Sublist.refl _
  | cons d rest ih =>
    intro i
    show List.Sublist (matchChangedGo files dm (d :: rest) i) _
    rw [matchChangedGo]
    split
    · cases hm : mapGet dm d with
      | some pkg =>
        simp only [hm, List.filterMap_cons, List.singleton_append]
        exact List.Sublist.cons₂ pkg (ih _)
      | none =>
        simp only [hm, List.filterMap_cons, List.nil_append]
        exact ih _
    · exact (ih _).trans (filterMap_tail_sublist _ d rest)

theorem listChanged_pairwise (g : List PackageGraphNode) (files : List String) :
    (listChangedPackages g files).Pairwise
      (fun p q => strLtB (p.dir ++ "/") (q.dir ++ "/") = true) := by
  unfold listChangedPackages
  set dm := g.foldl (fun m pkg => mapSet m (pkg.dir ++ "/") pkg) [] with hdm
  have hkeys : ((dm.map Prod.fst) : List String).Nodup :=
    dirMap_keys_nodup g [] (by simp)
  have hentries : ∀ p ∈ dm, p.1 = p.2.dir ++ "/" :=
    dirMap_entries g [] (by simp)
  set dirs := List.insertionSort strLe (dm.map Prod.fst) with hdirs
  have hsort : List.Sorted strLe dirs := List.sorted_insertionSort strLe _
  have hnodup : dirs.Nodup := (List.perm_insertionSort strLe _).nodup_iff.mpr hkeys
  have hstrict : dirs.Pairwise (fun a b => strLtB a b = true) := by
    have hand := List.Pairwise.and hsort hnodup
    exact hand.imp (fun h => strLtB_of_le_ne h.1 h.2)
  have hpair : (dirs.filterMap (fun d => mapGet dm d)).Pairwise
      (fun p q => strLtB (p.dir ++ "/") (q.dir ++ "/") = true) := by
    rw [List.pairwise_filterMap]
    refine hstrict.imp ?_
    intro a a' hlt b hb b' hb'
    have hb1 := mapGet_some (Option.mem_def.mp hb)
    have hb2 := mapGet_some (Option.mem_def.mp hb')
    rcases hb1 with ⟨q, hqm, hq1, hq2⟩
    rcases hb2 with ⟨q', hqm', hq1', hq2'⟩
    have ha : b.dir ++ "/" = a := by rw [← hq2, ← hentries q hqm, hq1]
    have ha' : b'.dir ++ "/" = a' := by rw [← hq2', ← hentries q' hqm', hq1']
    rw [ha, ha']
    exact hlt
  exact List.Pairwise.sublist (matchChangedGo_sublist _ dm dirs 0) hpair

/-- C9: with packages `a` at `pkg-a/` and `b` at `pkg-b/` and changed
files `pkg-a/index.ts`, `pkg-b/readme.md`, `other/file.txt`,
changed-package detection returns exactly `[a, b]` (the file under no
package prefix is skipped without error), and in general the result
list follows sorted package-directory order (strictly ascending
separator-suffixed directories). -/
theorem changed_packages_sorted_spec :
    listChangedPackages [pkgNodeA, pkgNodeB]
      ["pkg-a/index.ts", "pkg-b/readme.md", "other/file.txt"] = [pkgNodeA, pkgNodeB]
    ∧ ∀ (g : List PackageGraphNode) (files : List String),
        (listChangedPackages g files).Pairwise
          (fun p q => strLtB (p.dir ++ "/") (q.dir ++ "/") = true) :=
  ⟨by decide, fun g files => listChanged_pairwise g files⟩

/-- C10: with sibling packages `a` at `pkg-a/` and `ab` at `pkg-ab/`
and the single changed file `pkg-ab/x.ts`, detection returns only `ab`
and never `a`: the trailing separator on each directory prevents a
package from matching files of a sibling whose name extends its own. -/
theorem changed_packages_sibling_spec :
    listChangedPackages [pkgNodeA, pkgNodeAB] ["pkg-ab/x.ts"] = [pkgNodeAB]
    ∧ pkgNodeA ∉ listChangedPackages [pkgNodeA, pkgNodeAB] ["pkg-ab/x.ts"] :=
  ⟨by decide, by decide⟩

/-- C1 counterexample: with the nested packages `root` at `pkg/` and
`child` at `pkg/sub/` and the changed file `pkg/sub/x.ts`, it is not
the case that both enclosing packages appear in the result — refuting
the claim that every enclosing package is returned. -/
theorem nested_change_not_in_both :
    ¬ (nestRoot ∈ listChangedPackages [nestRoot, nestChild] ["pkg/sub/x.ts"]
       ∧ nestChild ∈ listChangedPackages [nestRoot, nestChild] ["pkg/sub/x.ts"]) := by
  decide

/-- C1 amended: a changed file under the nested directory is attributed
only to the outermost enclosing package, whose separator-suffixed
directory sorts first: the single shared cursor consumes the file (and
all further files sharing that prefix) during the outer package's
match, so the nested child package is not in the result. -/
theorem nested_change_root_only :
    listChangedPackages [nestRoot, nestChild] ["pkg/sub/x.ts"] = [nestRoot]
    ∧ nestChild ∉ listChangedPackages [nestRoot, nestChild] ["pkg/sub/x.ts"] := by
  decide

/-! ### Graph construction lemmas -/

theorem graphGet_eq_none_iff (g : List PackageGraphNode) (n : String) :
    graphGet g n = none ↔ n ∉ graphNames g := by
  unfold graphGet graphNames
  rw [List.find?_eq_none]
  constructor
  · intro h hc
    rcases List.mem_map.mp hc with ⟨node, hnode, hname⟩
    exact h node hnode (by simp [hname])
  · intro h node hnode hc
    exact h (List.mem_map.mpr ⟨node, hnode, by simpa using hc⟩)

theorem graphGet_isSome_iff (g : List PackageGraphNode) (n : String) :
    (graphGet g n).isSome = true ↔ n ∈ graphNames g := by
  rw [← Decidable.not_not (p := n ∈ graphNames g), ← graphGet_eq_none_iff]
  cases h : graphGet g n <;> simp [h]

theorem addPackages_ok_names :
    ∀ (pkgs : List Package) (acc g : List PackageGraphNode),
      addPackages acc pkgs = .ok g →
      graphNames g = graphNames acc ++ pkgs.map (fun p => p.packageJson.name) := by
  intro pkgs
  induction pkgs with
  | nil =>
    intro acc g h
    cases h
    simp
  | cons pkg rest ih =>
    intro acc g h
    rw [addPackages] at h
    cases hg : graphGet acc pkg.packageJson.name with
    | some ex => rw [hg] at h; cases h
    | none =>
      rw [hg] at h
      have := ih _ _ h
      rw [this]
      simp [graphNames, newNode]

theorem addPackages_ok_of_nodup :
    ∀ (pkgs : List Package) (acc : List PackageGraphNode),
      (graphNames acc ++ pkgs.map (fun p => p.packageJson.name)).Nodup →
      ∃ g, addPackages acc pkgs = .ok g := by
  intro pkgs
  induction pkgs with
  | nil =>
    intro acc _
    exact ⟨acc, rfl⟩
  | cons pkg rest ih =>
    intro acc h
    have hnot : pkg.packageJson.name ∉ graphNames acc := by
      rcases List.nodup_append.mp h with ⟨_, _, hdisj⟩
      intro hc
      exact hdisj hc (by simp)
    have hnone : graphGet acc pkg.packageJson.name = none :=
      (graphGet_eq_none_iff _ _).mpr hnot
    rw [addPackages, hnone]
    apply ih
    have hre : graphNames acc ++ pkg.packageJson.name :: rest.map (fun p => p.packageJson.name)
        = (graphNames acc ++ [pkg.packageJson.name]) ++ rest.map (fun p => p.packageJson.name) := by
      simp
    simp only [List.map_cons, hre] at h
    have hnames : graphNames (acc ++ [newNode pkg])
        = graphNames acc ++ [pkg.packageJson.name] := by
      unfold graphNames newNode
      simp
    rw [hnames]
    exact h

theorem addPackages_err_of_not_nodup :
    ∀ (pkgs : List Package) (acc : List PackageGraphNode),
      (graphNames acc).Nodup →
      ¬ (graphNames acc ++ pkgs.map (fun p => p.packageJson.name)).Nodup →
      ∃ e, addPackages acc pkgs = .error e := by
  intro pkgs
  induction pkgs with
  | nil =>
    intro acc hacc h
    exact absurd (by simpa using hacc) h
  | cons pkg rest ih =>
    intro acc hacc h
    rw [addPackages]
    cases hg : graphGet acc pkg.packageJson.name with
    | some ex => exact ⟨_, rfl⟩
    | none =>
      have hnot : pkg.packageJson.name ∉ graphNames acc :=
        (graphGet_eq_none_iff _ _).mp hg
      have hnames : graphNames (acc ++ [newNode pkg])
          = graphNames acc ++ [pkg.packageJson.name] := by
        unfold graphNames newNode
        simp
      apply ih
      · rw [hnames]
        rw [List.nodup_append]
        exact ⟨hacc, by simp, by intro x hx hc; rw [List.mem_singleton] at hc; subst hc; exact hnot hx⟩
      · rw [hnames]
        intro hc
        apply h
        simp only [List.map_cons]
        have hre : graphNames acc ++ pkg.packageJson.name :: rest.map (fun p => p.packageJson.name)
            = (graphNames acc ++ [pkg.packageJson.name]) ++ rest.map (fun p => p.packageJson.name) := by
          simp
        rw [hre]
        exact hc

theorem addPackages_error_split :
    ∀ (pkgs : List Package) (acc : List PackageGraphNode) (consumed : List Package)
      (n d d' : String),
      (∀ node ∈ acc, ∃ q ∈ consumed, q.packageJson.name = node.name ∧ q.dir = node.dir) →
      addPackages acc pkgs = .error (.duplicatePackageName n d d') →
      ∃ q p pre post, pkgs = pre ++ p :: post ∧ q ∈ consumed ++ pre
        ∧ q.packageJson.name = n ∧ q.dir = d'
        ∧ p.packageJson.name = n ∧ p.dir = d := by
  intro pkgs
  induction pkgs with
  | nil =>
    intro acc consumed n d d' hc h
    cases h
  | cons pkg rest ih =>
    intro acc consumed n d d' hc h
    rw [addPackages] at h
    cases hg : graphGet acc pkg.packageJson.name with
    | some ex =>
      rw [hg] at h
      injection h with h
      injection h with h1 h2 h3
      have hex : ex ∈ acc := List.mem_of_find?_eq_some hg
      have hexn : ex.name = pkg.packageJson.name := by
        have := List.find?_some hg
        simpa using this
      rcases hc ex hex with ⟨q, hq, hqn, hqd⟩
      refine ⟨q, pkg, [], rest, by simp, by simpa using hq, ?_, ?_, ?_, ?_⟩
      · rw [hqn, hexn, h1]
      · rw [hqd, h3]
      · rw [h1]
      · rw [h2]
    | none =>
      rw [hg] at h
      have hc' : ∀ node ∈ acc ++ [newNode pkg],
          ∃ q ∈ consumed ++ [pkg], q.packageJson.name = node.name ∧ q.dir = node.dir := by
        intro node hnode
        rcases List.mem_append.mp hnode with hn | hn
        · rcases hc node hn with ⟨q, hq, hqn, hqd⟩
          exact ⟨q, List.mem_append_left _ hq, hqn, hqd⟩
        · rw [List.mem_singleton] at hn
          subst hn
          exact ⟨pkg, List.mem_append_right _ (by simp), rfl, rfl⟩
      rcases ih _ _ n d d' hc' h with ⟨q, p, pre, post, hsplit, hqmem, hqn, hqd, hpn, hpd⟩
      refine ⟨q, p, pkg :: pre, post, by rw [hsplit]; rfl, ?_, hqn, hqd, hpn, hpd⟩
      have : consumed ++ [pkg] ++ pre = consumed ++ (pkg :: pre) := by simp
      rw [← this]
      exact hqmem

/-- C2: construction fails with a duplicate-name error exactly on name
collisions: if two descriptors share a name, `fromPackages` returns the
duplicate-name error carrying the shared name and the directories of
two distinct descriptors bearing it (the earlier one as the existing
directory); if all names are pairwise distinct, construction
succeeds. -/
theorem fromPackages_duplicate_name_spec (packages : List Package) :
    (¬ (packages.map (fun p => p.packageJson.name)).Nodup →
      ∃ n d d' q p pre post,
        fromPackages packages = .error (.duplicatePackageName n d d')
        ∧ packages = pre ++ p :: post ∧ q ∈ pre
        ∧ q.packageJson.name = n ∧ p.packageJson.name = n
        ∧ d' = q.dir ∧ d = p.dir)
    ∧ ((packages.map (fun p => p.packageJson.name)).Nodup →
      ∃ g, fromPackages packages = .ok g) := by
  constructor
  · intro hdup
    have hne : ¬ (graphNames [] ++ packages.map (fun p => p.packageJson.name)).Nodup := by
      simpa [graphNames] using hdup
    rcases addPackages_err_of_not_nodup packages [] (by simp [graphNames]) hne with ⟨e, he⟩
    obtain ⟨n, d, d'⟩ := e
    rcases addPackages_error_split packages [] [] n d d' (by simp) he
      with ⟨q, p, pre, post, hsplit, hq, hqn, hqd, hpn, hpd⟩
    refine ⟨n, d, d', q, p, pre, post, ?_, hsplit, by simpa using hq, hqn, hpn, hqd.symm, hpd.symm⟩
    unfold fromPackages
    rw [he]
    rfl
  · intro hnd
    rcases addPackages_ok_of_nodup packages [] (by simpa [graphNames] using hnd) with ⟨g, hgok⟩
    refine ⟨g.map (populateNode g), ?_⟩
    unfold fromPackages
    rw [hgok]
    rfl

/-- Witness for C2 at concrete inputs: duplicated name `x` fails with
the diagnostic data, distinct names succeed. -/
theorem fromPackages_duplicate_name_spec_witness :
    (∃ n d d' q p pre post,
        fromPackages dupPackages = .error (.duplicatePackageName n d d')
        ∧ dupPackages = pre ++ p :: post ∧ q ∈ pre
        ∧ q.packageJson.name = n ∧ p.packageJson.name = n
        ∧ d' = q.dir ∧ d = p.dir)
    ∧ (∃ g, fromPackages egPackages = .ok g) :=
  ⟨(fromPackages_duplicate_name_spec dupPackages).1 (by decide),
   (fromPackages_duplicate_name_spec egPackages).2 (by decide)⟩

/-! ### Second-pass characterization -/

theorem foldl_depStep (g : List PackageGraphNode) :
    ∀ (l : List String) (n : PackageGraphNode),
      l.foldl (depStep g) n = { n with
        allLocalDependencies := addIfLocal g n.allLocalDependencies l,
        publishedLocalDependencies := addIfLocal g n.publishedLocalDependencies l,
        localDependencies := addIfLocal g n.localDependencies l } := by
  intro l
  induction l with
  | nil => intro n; rfl
  | cons d t ih =>
    intro n
    rw [List.foldl_cons, ih (depStep g n d)]
    unfold depStep addIfLocal
    cases hg : graphGet g d with
    | some node => simp [hg]
    | none => simp [hg]

theorem foldl_devDepStep (g : List PackageGraphNode) :
    ∀ (l : List String) (n : PackageGraphNode),
      l.foldl (devDepStep g) n = { n with
        allLocalDependencies := addIfLocal g n.allLocalDependencies l,
        localDevDependencies := addIfLocal g n.localDevDependencies l } := by
  intro l
  induction l with
  | nil => intro n; rfl
  | cons d t ih =>
    intro n
    rw [List.foldl_cons, ih (devDepStep g n d)]
    unfold devDepStep addIfLocal
    cases hg : graphGet g d with
    | some node => simp [hg]
    | none => simp [hg]

theorem foldl_optDepStep (g : List PackageGraphNode) :
    ∀ (l : List String) (n : PackageGraphNode),
      l.foldl (optDepStep g) n = { n with
        allLocalDependencies := addIfLocal g n.allLocalDependencies l,
        publishedLocalDependencies := addIfLocal g n.publishedLocalDependencies l,
        localOptionalDependencies := addIfLocal g n.localOptionalDependencies l } := by
  intro l
  induction l with
  | nil => intro n; rfl
  | cons d t ih =>
    intro n
    rw [List.foldl_cons, ih (optDepStep g n d)]
    unfold optDepStep addIfLocal
    cases hg : graphGet g d with
    | some node => simp [hg]
    | none => simp [hg]

theorem populateNode_eq (g : List PackageGraphNode) (node : PackageGraphNode) :
    populateNode g node = { node with
      allLocalDependencies := addIfLocal g (addIfLocal g (addIfLocal g
        node.allLocalDependencies node.packageJson.dependencies)
        node.packageJson.devDependencies) node.packageJson.optionalDependencies,
      publishedLocalDependencies := addIfLocal g (addIfLocal g
        node.publishedLocalDependencies node.packageJson.dependencies)
        node.packageJson.optionalDependencies,
      localDependencies := addIfLocal g node.localDependencies node.packageJson.dependencies,
      localDevDependencies := addIfLocal g node.localDevDependencies
        node.packageJson.devDependencies,
      localOptionalDependencies := addIfLocal g node.localOptionalDependencies
        node.packageJson.optionalDependencies } := by
  unfold populateNode
  simp only [foldl_depStep, foldl_devDepStep, foldl_optDepStep]

theorem mapGet_addIfLocal (g : List PackageGraphNode) :
    ∀ (l : List String) (m : List (String × String)) (j : String),
      mapGet (addIfLocal g m l) j =
        if (graphGet g j).isSome = true ∧ j ∈ l then some j else mapGet m j := by
  intro l
  induction l with
  | nil => intro m j; simp [addIfLocal]
  | cons d t ih =>
    intro m j
    have hstep : addIfLocal g m (d :: t)
        = addIfLocal g (if (graphGet g d).isSome then mapSet m d d else m) t := by
      unfold addIfLocal
      rw [List.foldl_cons]
    rw [hstep, ih]
    cases hpd : (graphGet g d).isSome with
    | true =>
      rw [if_pos rfl, mapGet_mapSet]
      by_cases hjd : j = d
      · subst hjd
        simp [hpd]
      · simp [hjd]
    | false =>
      rw [if_neg (show ¬ ((false : Bool) = true) from by simp)]
      by_cases hpj : (graphGet g j).isSome = true
      · by_cases hjt : j ∈ t
        · simp [hpj, hjt]
        · have hjd : j ≠ d := by
            intro hc
            rw [hc, hpd] at hpj
            cases hpj
          simp [hpj, hjt, hjd]
      · simp [hpj]

theorem addPackages_nodes_empty :
    ∀ (pkgs : List Package) (acc g : List PackageGraphNode),
      addPackages acc pkgs = .ok g →
      ∀ node ∈ g, node ∈ acc ∨
        (node.allLocalDependencies = [] ∧ node.publishedLocalDependencies = []
          ∧ node.localDependencies = [] ∧ node.localDevDependencies = []
          ∧ node.localOptionalDependencies = []) := by
  intro pkgs
  induction pkgs with
  | nil =>
    intro acc g h node hn
    cases h
    exact Or.inl hn
  | cons pkg rest ih =>
    intro acc g h node hn
    rw [addPackages] at h
    cases hg : graphGet acc pkg.packageJson.name with
    | some ex => rw [hg] at h; cases h
    | none =>
      rw [hg] at h
      rcases ih _ _ h node hn with hmem | hempty
      · rcases List.mem_append.mp hmem with hmem | hmem
        · exact Or.inl hmem
        · rw [List.mem_singleton] at hmem
          subst hmem
          exact Or.inr ⟨rfl, rfl, rfl, rfl, rfl⟩
      · exact Or.inr hempty

theorem fromPackages_node_form {packages : List Package} {g : List PackageGraphNode}
    {node : PackageGraphNode} (hg : fromPackages packages = .ok g) (hn : node ∈ g) :
    ∃ g0 node0, addPackages [] packages = .ok g0 ∧ node0 ∈ g0
      ∧ node = populateNode g0 node0
      ∧ node0.allLocalDependencies = [] ∧ node0.publishedLocalDependencies = []
      ∧ node0.localDependencies = [] ∧ node0.localDevDependencies = []
      ∧ node0.localOptionalDependencies = [] := by
  unfold fromPackages at hg
  cases h0 : addPackages [] packages with
  | error e => rw [h0] at hg; cases hg
  | ok g0 =>
    rw [h0] at hg
    injection hg with hg
    subst hg
    rcases List.mem_map.mp hn with ⟨node0, hn0, hform⟩
    rcases addPackages_nodes_empty packages [] g0 h0 node0 hn0 with hmem | hempty
    · cases hmem
    · exact ⟨g0, node0, rfl, hn0, hform.symm, hempty.1, hempty.2.1, hempty.2.2.1,
        hempty.2.2.2.1, hempty.2.2.2.2⟩

/-- C3: in a successfully built graph, `allLocalDependencies` is the
union of `localDependencies`, `localDevDependencies` and
`localOptionalDependencies`: the key sets coincide and every key of one
of the three maps carries the same node reference in
`allLocalDependencies`. -/
theorem allLocalDependencies_union_spec (packages : List Package)
    (g : List PackageGraphNode) (node : PackageGraphNode)
    (hg : fromPackages packages = .ok g) (hn : node ∈ g) (k : String) :
    ((mapGet node.allLocalDependencies k).isSome = true ↔
      ((mapGet node.localDependencies k).isSome = true
        ∨ (mapGet node.localDevDependencies k).isSome = true
        ∨ (mapGet node.localOptionalDependencies k).isSome = true))
    ∧ (∀ v, mapGet node.localDependencies k = some v →
        mapGet node.allLocalDependencies k = some v)
    ∧ (∀ v, mapGet node.localDevDependencies k = some v →
        mapGet node.allLocalDependencies k = some v)
    ∧ (∀ v, mapGet node.localOptionalDependencies k = some v →
        mapGet node.allLocalDependencies k = some v) := by
  rcases fromPackages_node_form hg hn with ⟨g0, n0, h0, hn0, hform, e1, e2, e3, e4, e5⟩
  subst hform
  rw [populateNode_eq]
  simp only [mapGet_addIfLocal, e1, e2, e3, e4, e5, mapGet_nil]
  by_cases hp : (graphGet g0 k).isSome = true <;>
    by_cases h1 : k ∈ n0.packageJson.dependencies <;>
    by_cases h2 : k ∈ n0.packageJson.devDependencies <;>
    by_cases h3 : k ∈ n0.packageJson.optionalDependencies <;>
    simp [hp, h1, h2, h3]

/-- Witness for C3 on the concrete graph of `egPackages` at the node of
`p1` and the key `p2` (a name in all three raw dependency lists). -/
theorem allLocalDependencies_union_spec_witness :
    ((mapGet egNodeP1.allLocalDependencies "p2").isSome = true ↔
      ((mapGet egNodeP1.localDependencies "p2").isSome = true
        ∨ (mapGet egNodeP1.localDevDependencies "p2").isSome = true
        ∨ (mapGet egNodeP1.localOptionalDependencies "p2").isSome = true))
    ∧ (∀ v, mapGet egNodeP1.localDependencies "p2" = some v →
        mapGet egNodeP1.allLocalDependencies "p2" = some v)
    ∧ (∀ v, mapGet egNodeP1.localDevDependencies "p2" = some v →
        mapGet egNodeP1.allLocalDependencies "p2" = some v)
    ∧ (∀ v, mapGet egNodeP1.localOptionalDependencies "p2" = some v →
        mapGet egNodeP1.allLocalDependencies "p2" = some v) :=
  allLocalDependencies_union_spec egPackages egGraph egNodeP1 rfl (by decide) "p2"

/-- C4: in a successfully built graph, `publishedLocalDependencies` is
the union of `localDependencies` and `localOptionalDependencies`, and a
name appearing only in the manifest's `devDependencies` is not among
its keys. -/
theorem publishedLocalDependencies_union_spec (packages : List Package)
    (g : List PackageGraphNode) (node : PackageGraphNode)
    (hg : fromPackages packages = .ok g) (hn : node ∈ g) (k : String) :
    ((mapGet node.publishedLocalDependencies k).isSome = true ↔
      ((mapGet node.localDependencies k).isSome = true
        ∨ (mapGet node.localOptionalDependencies k).isSome = true))
    ∧ (∀ v, mapGet node.localDependencies k = some v →
        mapGet node.publishedLocalDependencies k = some v)
    ∧ (∀ v, mapGet node.localOptionalDependencies k = some v →
        mapGet node.publishedLocalDependencies k = some v)
    ∧ (k ∈ node.packageJson.devDependencies → k ∉ node.packageJson.dependencies →
        k ∉ node.packageJson.optionalDependencies →
        mapGet node.publishedLocalDependencies k = none) := by
  rcases fromPackages_node_form hg hn with ⟨g0, n0, h0, hn0, hform, e1, e2, e3, e4, e5⟩
  subst hform
  rw [populateNode_eq]
  simp only [mapGet_addIfLocal, e1, e2, e3, e4, e5, mapGet_nil]
  by_cases hp : (graphGet g0 k).isSome = true <;>
    by_cases h1 : k ∈ n0.packageJson.dependencies <;>
    by_cases h3 : k ∈ n0.packageJson.optionalDependencies <;>
    simp [hp, h1, h3]

/-- Witness for C4 on the concrete graph of `egPackages` at the node of
`p1` and the key `p3` (a dev-only dependency name). -/
theorem publishedLocalDependencies_union_spec_witness :
    ((mapGet egNodeP1.publishedLocalDependencies "p3").isSome = true ↔
      ((mapGet egNodeP1.localDependencies "p3").isSome = true
        ∨ (mapGet egNodeP1.localOptionalDependencies "p3").isSome = true))
    ∧ (∀ v, mapGet egNodeP1.localDependencies "p3" = some v →
        mapGet egNodeP1.publishedLocalDependencies "p3" = some v)
    ∧ (∀ v, mapGet egNodeP1.localOptionalDependencies "p3" = some v →
        mapGet egNodeP1.publishedLocalDependencies "p3" = some v)
    ∧ ("p3" ∈ egNodeP1.packageJson.devDependencies → "p3" ∉ egNodeP1.packageJson.dependencies →
        "p3" ∉ egNodeP1.packageJson.optionalDependencies →
        mapGet egNodeP1.publishedLocalDependencies "p3" = none) :=
  publishedLocalDependencies_union_spec egPackages egGraph egNodeP1 rfl (by decide) "p3"

/-- C5: every key of every neighbor map of every node of a successfully
built graph is the name of some input descriptor; names with no
matching descriptor are absent from all five maps. -/
theorem neighbor_keys_in_input_spec (packages : List Package)
    (g : List PackageGraphNode) (node : PackageGraphNode)
    (hg : fromPackages packages = .ok g) (hn : node ∈ g) (k : String) :
    ((mapGet node.allLocalDependencies k).isSome = true
      ∨ (mapGet node.publishedLocalDependencies k).isSome = true
      ∨ (mapGet node.localDependencies k).isSome = true
      ∨ (mapGet node.localDevDependencies k).isSome = true
      ∨ (mapGet node.localOptionalDependencies k).isSome = true) →
    k ∈ packages.map (fun p => p.packageJson.name) := by
  rcases fromPackages_node_form hg hn with ⟨g0, n0, h0, hn0, hform, e1, e2, e3, e4, e5⟩
  subst hform
  rw [populateNode_eq]
  simp only [mapGet_addIfLocal, e1, e2, e3, e4, e5, mapGet_nil]
  intro hdisj
  by_cases hp : (graphGet g0 k).isSome = true
  · have hk : k ∈ graphNames g0 := (graphGet_isSome_iff _ _).mp hp
    rw [addPackages_ok_names packages [] g0 h0] at hk
    simpa [graphNames] using hk
  · exfalso
    simp [hp] at hdisj

/-- Witness for C5 on the concrete graph of `egPackages` at the node of
`p1` and the key `p2`, which is a key of `allLocalDependencies`
there. -/
theorem neighbor_keys_in_input_spec_witness :
    "p2" ∈ egPackages.map (fun p => p.packageJson.name) :=
  neighbor_keys_in_input_spec egPackages egGraph egNodeP1 rfl (by decide) "p2" (by decide)

/-! ### Traversal lemmas -/

theorem collectGo_nil (g : List PackageGraphNode)
    (f : PackageGraphNode → Option (List String)) (targets : Finset String) (lg : List String) :
    collectGo g f targets [] lg = .ok (targets, lg) := by
  rw [collectGo]

theorem collectGo_cons_mem (g : List PackageGraphNode)
    (f : PackageGraphNode → Option (List String)) (targets : Finset String)
    (name : String) (rest lg : List String) (hmem : name ∈ targets) :
    collectGo g f targets (name :: rest) lg = collectGo g f targets rest lg := by
  rw [collectGo, dif_pos hmem]

theorem collectGo_cons_none (g : List PackageGraphNode)
    (f : PackageGraphNode → Option (List String)) (targets : Finset String)
    (name : String) (rest lg : List String) (hnot : name ∉ targets)
    (hnone : graphGet g name = none) :
    collectGo g f targets (name :: rest) lg = .error (.packageNotFound name) := by
  rw [collectGo, dif_neg hnot]
  split
  · rfl
  · rename_i node heq
    rw [hnone] at heq
    cases heq

theorem collectGo_cons_some (g : List PackageGraphNode)
    (f : PackageGraphNode → Option (List String)) (targets : Finset String)
    (name : String) (rest lg : List String) (node : PackageGraphNode)
    (hnot : name ∉ targets) (hsome : graphGet g name = some node) :
    collectGo g f targets (name :: rest) lg
      = collectGo g f (insert name targets) (((f node).getD []).reverse ++ rest)
          (lg ++ [name]) := by
  rw [collectGo, dif_neg hnot]
  split
  · rename_i heq
    rw [hsome] at heq
    cases heq
  · rename_i node' heq
    rw [hsome] at heq
    injection heq with heq
    subst heq
    rfl

theorem collectGo_safety (g : List PackageGraphNode)
    (f : PackageGraphNode → Option (List String)) (E : String → Prop)
    (hCl : ∀ m nodem, E m → graphGet g m = some nodem → ∀ x ∈ (f nodem).getD [], E x) :
    ∀ (targets : Finset String) (searchNames lg : List String),
      (∀ x ∈ targets, E x) → (∀ x ∈ searchNames, E x) →
      (∀ name, collectGo g f targets searchNames lg = .error (.packageNotFound name) →
        E name ∧ graphGet g name = none)
      ∧ (∀ s l2, collectGo g f targets searchNames lg = .ok (s, l2) → ∀ x ∈ s, E x) := by
  intro targets searchNames lg
  induction targets, searchNames, lg using collectGo.induct g f with
  | case1 targets lg =>
    intro hT hS
    constructor
    · intro name h
      rw [collectGo_nil] at h
      cases h
    · intro s l2 h x hx
      rw [collectGo_nil] at h
      injection h with h
      injection h with h1 h2
      subst h1
      exact hT x hx
  | case2 targets lg name rest hmem ih =>
    intro hT hS
    rw [collectGo_cons_mem g f targets name rest lg hmem]
    exact ih hT (fun x hx => hS x (List.mem_cons_of_mem name hx))
  | case3 targets lg name rest hnot hnone =>
    intro hT hS
    constructor
    · intro name' h
      rw [collectGo_cons_none g f targets name rest lg hnot hnone] at h
      injection h with h
      injection h with h
      subst h
      exact ⟨hS name (List.mem_cons_self name rest), hnone⟩
    · intro s l2 h
      rw [collectGo_cons_none g f targets name rest lg hnot hnone] at h
      cases h
  | case4 targets lg name rest hnot node hsome ih =>
    intro hT hS
    have hEname : E name := hS name (List.mem_cons_self name rest)
    have hT' : ∀ x ∈ insert name targets, E x := by
      intro x hx
      rcases Finset.mem_insert.mp hx with hx | hx
      · subst hx
        exact hEname
      · exact hT x hx
    have hS' : ∀ x ∈ ((f node).getD []).reverse ++ rest, E x := by
      intro x hx
      rcases List.mem_append.mp hx with hx | hx
      · exact hCl name node hEname hsome x (List.mem_reverse.mp hx)
      · exact hS x (List.mem_cons_of_mem name hx)
    rw [collectGo_cons_some g f targets name rest lg node hnot hsome]
    exact ih hT' hS'

theorem collectGo_ok_props (g : List PackageGraphNode)
    (f : PackageGraphNode → Option (List String)) :
    ∀ (targets : Finset String) (searchNames lg : List String) (s : Finset String)
      (l2 : List String),
      collectGo g f targets searchNames lg = .ok (s, l2) →
      (∀ x ∈ targets, x ∈ s) ∧ (∀ x ∈ searchNames, x ∈ s)
      ∧ (∀ x ∈ s, x ∉ targets →
          ∃ nodex, graphGet g x = some nodex ∧ ∀ y ∈ (f nodex).getD [], y ∈ s) := by
  intro targets searchNames lg
  induction targets, searchNames, lg using collectGo.induct g f with
  | case1 targets lg =>
    intro s l2 h
    rw [collectGo_nil] at h
    injection h with h
    injection h with h1 h2
    subst h1
    exact ⟨fun x hx => hx, by simp, fun x hx hnx => absurd hx hnx⟩
  | case2 targets lg name rest hmem ih =>
    intro s l2 h
    rw [collectGo_cons_mem g f targets name rest lg hmem] at h
    rcases ih s l2 h with ⟨ha, hb, hc⟩
    refine ⟨ha, ?_, hc⟩
    intro x hx
    rcases List.mem_cons.mp hx with hx | hx
    · subst hx
      exact ha x hmem
    · exact hb x hx
  | case3 targets lg name rest hnot hnone =>
    intro s l2 h
    rw [collectGo_cons_none g f targets name rest lg hnot hnone] at h
    cases h
  | case4 targets lg name rest hnot node hsome ih =>
    intro s l2 h
    rw [collectGo_cons_some g f targets name rest lg node hnot hsome] at h
    rcases ih s l2 h with ⟨ha, hb, hc⟩
    have hname : name ∈ s := ha name (Finset.mem_insert_self name targets)
    refine ⟨?_, ?_, ?_⟩
    · intro x hx
      exact ha x (Finset.mem_insert_of_mem hx)
    · intro x hx
      rcases List.mem_cons.mp hx with hx | hx
      · subst hx
        exact hname
      · exact hb x (List.mem_append_right _ hx)
    · intro x hx hnx
      by_cases hxn : x = name
      · subst hxn
        refine ⟨node, hsome, ?_⟩
        intro y hy
        exact hb y (List.mem_append_left _ (List.mem_reverse.mpr hy))
      · have : x ∉ insert name targets := by
          intro hc
          rcases Finset.mem_insert.mp hc with hc | hc
          · exact hxn hc
          · exact hnx hc
        exact hc x hx this

theorem collectGo_log (g : List PackageGraphNode)
    (f : PackageGraphNode → Option (List String)) :
    ∀ (targets : Finset String) (searchNames lg : List String) (s : Finset String)
      (l2 : List String),
      collectGo g f targets searchNames lg = .ok (s, l2) →
      lg.Nodup → lg.toFinset = targets → l2.Nodup ∧ l2.toFinset = s := by
  intro targets searchNames lg
  induction targets, searchNames, lg using collectGo.induct g f with
  | case1 targets lg =>
    intro s l2 h hnd htf
    rw [collectGo_nil] at h
    injection h with h
    injection h with h1 h2
    subst h1
    subst h2
    exact ⟨hnd, htf⟩
  | case2 targets lg name rest hmem ih =>
    intro s l2 h hnd htf
    rw [collectGo_cons_mem g f targets name rest lg hmem] at h
    exact ih s l2 h hnd htf
  | case3 targets lg name rest hnot hnone =>
    intro s l2 h hnd htf
    rw [collectGo_cons_none g f targets name rest lg hnot hnone] at h
    cases h
  | case4 targets lg name rest hnot node hsome ih =>
    intro s l2 h hnd htf
    rw [collectGo_cons_some g f targets name rest lg node hnot hsome] at h
    apply ih s l2 h
    · rw [List.nodup_append]
      refine ⟨hnd, by simp, ?_⟩
      intro x hx hc
      rw [List.mem_singleton] at hc
      subst hc
      apply hnot
      rw [← htf]
      exact List.mem_toFinset.mpr hx
    · rw [List.toFinset_append]
      rw [htf]
      simp [Finset.insert_eq, Finset.union_comm]

theorem collectGo_ok_exists (g : List PackageGraphNode)
    (f : PackageGraphNode → Option (List String))
    (hCl : ∀ node ∈ g, ∀ x ∈ (f node).getD [], x ∈ graphNames g) :
    ∀ (targets : Finset String) (searchNames lg : List String),
      (∀ x ∈ searchNames, x ∈ graphNames g) →
      ∃ s l2, collectGo g f targets searchNames lg = .ok (s, l2) := by
  intro targets searchNames lg
  induction targets, searchNames, lg using collectGo.induct g f with
  | case1 targets lg =>
    intro hS
    exact ⟨targets, lg, collectGo_nil g f targets lg⟩
  | case2 targets lg name rest hmem ih =>
    intro hS
    rw [collectGo_cons_mem g f targets name rest lg hmem]
    exact ih (fun x hx => hS x (List.mem_cons_of_mem name hx))
  | case3 targets lg name rest hnot hnone =>
    intro hS
    exact absurd (hS name (List.mem_cons_self name rest))
      ((graphGet_eq_none_iff g name).mp hnone)
  | case4 targets lg name rest hnot node hsome ih =>
    intro hS
    rw [collectGo_cons_some g f targets name rest lg node hnot hsome]
    apply ih
    intro x hx
    rcases List.mem_append.mp hx with hx | hx
    · exact hCl node (List.mem_of_find?_eq_some hsome) x (List.mem_reverse.mp hx)
    · exact hS x (List.mem_cons_of_mem name hx)

theorem collectPackageNames_error_iff (g : List PackageGraphNode)
    (f : PackageGraphNode → Option (List String)) (starts : List String) (e : CollectError) :
    collectPackageNames g f starts = .error e ↔
      collectPackageNamesAux g f starts = .error e := by
  unfold collectPackageNames
  cases h : collectPackageNamesAux g f starts with
  | error e' => simp [Except.map]
  | ok p => simp [Except.map]

theorem collectPackageNames_ok_iff (g : List PackageGraphNode)
    (f : PackageGraphNode → Option (List String)) (starts : List String) (s : Finset String) :
    collectPackageNames g f starts = .ok s ↔
      ∃ l2, collectPackageNamesAux g f starts = .ok (s, l2) := by
  unfold collectPackageNames
  cases h : collectPackageNamesAux g f starts with
  | error e' => simp [Except.map]
  | ok p =>
    cases p with
    | mk s' l2 => simp [Except.map]

theorem Enc_mono {g : List PackageGraphNode} {f : PackageGraphNode → Option (List String)}
    {l1 l2 : List String} (h : ∀ x, x ∈ l1 → x ∈ l2) :
    ∀ {n}, Enc g f l1 n → Enc g f l2 n := by
  intro n he
  induction he with
  | start hmem => exact Enc.start (h _ hmem)
  | step hm hsome hx ih => exact Enc.step ih hsome hx

theorem Enc_mem_of_ok (g : List PackageGraphNode)
    (f : PackageGraphNode → Option (List String)) (starts : List String)
    (s : Finset String) (l2 : List String)
    (hok : collectPackageNamesAux g f starts = .ok (s, l2)) :
    ∀ n, Enc g f starts n → n ∈ s := by
  have hprops := collectGo_ok_props g f ∅ starts.reverse [] s l2 hok
  intro n henc
  induction henc with
  | start hmem => exact hprops.2.1 _ (List.mem_reverse.mpr hmem)
  | step hm hsome hx ih =>
    rcases hprops.2.2 _ ih (by simp) with ⟨nodem, hsome', hexp⟩
    rw [hsome'] at hsome
    injection hsome with hsome
    subst hsome
    exact hexp _ hx

/-- C6: on any graph (cycles included), with start names present in
the graph and an expand function whose outputs stay in the graph, the
traversal returns a result set (the embedding is total, so the loop
terminates), and the ghost invocation log shows `collectFn` is invoked
exactly once per unique name of the returned set: the log is
duplicate-free and its underlying set is the result set, so no name is
ever re-expanded. -/
theorem collect_terminates_expand_once_spec (g : List PackageGraphNode)
    (f : PackageGraphNode → Option (List String)) (startNames : List String)
    (h1 : ∀ n ∈ startNames, n ∈ graphNames g)
    (h2 : ∀ node ∈ g, ∀ m ∈ (f node).getD [], m ∈ graphNames g) :
    ∃ s l2, collectPackageNamesAux g f startNames = .ok (s, l2)
      ∧ l2.Nodup ∧ l2.toFinset = s := by
  rcases collectGo_ok_exists g f h2 ∅ startNames.reverse []
    (fun x hx => h1 x (List.mem_reverse.mp hx)) with ⟨s, l2, hok⟩
  rcases collectGo_log g f ∅ startNames.reverse [] s l2 hok (by simp) (by simp)
    with ⟨hnd, htf⟩
  exact ⟨s, l2, hok, hnd, htf⟩

/-- Witness for C6 on the two-package cyclic graph, expanding along
`allLocalDependencies` from `a`. -/
theorem collect_terminates_expand_once_spec_witness :
    ∃ s l2, collectPackageNamesAux cycGraph expandAll ["a"] = .ok (s, l2)
      ∧ l2.Nodup ∧ l2.toFinset = s :=
  collect_terminates_expand_once_spec cycGraph expandAll ["a"] (by decide) (by decide)

/-- C7: the traversal fails with a not-found error if and only if some
encountered name — a start name, or a name yielded by `collectFn` on
the node of an encountered name — has no node in the graph, and the
error carries such a missing encountered name.  Names yielded by
`collectFn` are validated only when popped for processing: `Enc`
membership alone never fails, only a missing resolution does. -/
theorem collect_not_found_iff_spec (g : List PackageGraphNode)
    (f : PackageGraphNode → Option (List String)) (startNames : List String) :
    ((∃ e, collectPackageNames g f startNames = .error e) ↔
      (∃ n, Enc g f startNames n ∧ graphGet g n = none))
    ∧ (∀ n, collectPackageNames g f startNames = .error (.packageNotFound n) →
        graphGet g n = none ∧ Enc g f startNames n) := by
  have hsafe := collectGo_safety g f (Enc g f startNames)
    (fun m nodem hm hsome x hx => Enc.step hm hsome hx) ∅ startNames.reverse []
    (by simp) (fun x hx => Enc.start (List.mem_reverse.mp hx))
  constructor
  · constructor
    · rintro ⟨e, he⟩
      obtain ⟨n⟩ := e
      rw [collectPackageNames_error_iff] at he
      rcases hsafe.1 n he with ⟨henc, hnone⟩
      exact ⟨n, henc, hnone⟩
    · rintro ⟨n, henc, hnone⟩
      cases hres : collectPackageNames g f startNames with
      | error e => exact ⟨e, rfl⟩
      | ok s =>
        exfalso
        rcases (collectPackageNames_ok_iff g f startNames s).mp hres with ⟨l2, hok⟩
        have hmem : n ∈ s := Enc_mem_of_ok g f startNames s l2 hok n henc
        rcases (collectGo_ok_props g f ∅ startNames.reverse [] s l2 hok).2.2 n hmem
          (by simp) with ⟨nodex, hsome, _⟩
        rw [hnone] at hsome
        cases hsome
  · intro n he
    rw [collectPackageNames_error_iff] at he
    rcases hsafe.1 n he with ⟨henc, hnone⟩
    exact ⟨hnone, henc⟩

/-- Witness for C7: on the one-package graph whose raw manifest names
`missing`, expanding raw manifest names from `a` fails. -/
theorem collect_not_found_iff_spec_witness :
    ∃ e, collectPackageNames missGraph expandRaw ["a"] = .error e :=
  (collect_not_found_iff_spec missGraph expandRaw ["a"]).1.mpr
    ⟨"missing",
     @Enc.step missGraph expandRaw ["a"] "a" "missing" missNodeA
       (Enc.start (by simp)) (by decide) (by decide),
     by decide⟩

/-- C8: start-name lists with the same underlying set of names — in
particular a list with duplicated entries and its deduplication — agree
on whether the traversal succeeds and, when it does, on the returned
set. -/
theorem collect_start_multiplicity_spec (g : List PackageGraphNode)
    (f : PackageGraphNode → Option (List String)) (l1 l2 : List String)
    (h : l1.toFinset = l2.toFinset) :
    ((∃ s, collectPackageNames g f l1 = .ok s) ↔ (∃ s, collectPackageNames g f l2 = .ok s))
    ∧ (∀ s1 s2, collectPackageNames g f l1 = .ok s1 → collectPackageNames g f l2 = .ok s2 →
        s1 = s2) := by
  have hmem : ∀ x, x ∈ l1 ↔ x ∈ l2 := by
    intro x
    rw [← List.mem_toFinset, h, List.mem_toFinset]
  have hchar : ∀ (l : List String) (s : Finset String) (lgg : List String),
      collectPackageNamesAux g f l = .ok (s, lgg) → ∀ x, x ∈ s ↔ Enc g f l x := by
    intro l s lgg hok x
    constructor
    · intro hx
      exact (collectGo_safety g f (Enc g f l)
        (fun m nodem hm hsome y hy => Enc.step hm hsome hy) ∅ l.reverse []
        (by simp) (fun y hy => Enc.start (List.mem_reverse.mp hy))).2 s lgg hok x hx
    · intro hx
      exact Enc_mem_of_ok g f l s lgg hok x hx
  constructor
  · suffices hdir : ∀ la lb : List String, (∀ x, x ∈ la ↔ x ∈ lb) →
        (∃ s, collectPackageNames g f la = .ok s) →
        (∃ s, collectPackageNames g f lb = .ok s) by
      exact ⟨hdir l1 l2 hmem, hdir l2 l1 (fun x => (hmem x).symm)⟩
    rintro la lb hab ⟨s, hs⟩
    cases hres : collectPackageNames g f lb with
    | ok s' => exact ⟨s', rfl⟩
    | error e =>
      exfalso
      obtain ⟨n⟩ := e
      rw [collectPackageNames_error_iff] at hres
      rcases (collectGo_safety g f (Enc g f lb)
        (fun m nodem hm hsome y hy => Enc.step hm hsome hy) ∅ lb.reverse []
        (by simp) (fun y hy => Enc.start (List.mem_reverse.mp hy))).1 n hres
        with ⟨hencb, hnone⟩
      have henca : Enc g f la n := Enc_mono (fun x hx => (hab x).mpr hx) hencb
      rcases (collectPackageNames_ok_iff g f la s).mp hs with ⟨lgg, hok⟩
      have hmem' : n ∈ s := Enc_mem_of_ok g f la s lgg hok n henca
      rcases (collectGo_ok_props g f ∅ la.reverse [] s lgg hok).2.2 n hmem'
        (by simp) with ⟨nodex, hsome, _⟩
      rw [hnone] at hsome
      cases hsome
  · intro s1 s2 h1 h2
    rcases (collectPackageNames_ok_iff g f l1 s1).mp h1 with ⟨lg1, hok1⟩
    rcases (collectPackageNames_ok_iff g f l2 s2).mp h2 with ⟨lg2, hok2⟩
    apply Finset.ext
    intro x
    rw [hchar l1 s1 lg1 hok1 x, hchar l2 s2 lg2 hok2 x]
    constructor
    · exact Enc_mono (fun y hy => (hmem y).mp hy)
    · exact Enc_mono (fun y hy => (hmem y).mpr hy)

/-- Witness for C8 on the cyclic graph: the start list with a
duplicated `a` and its deduplication agree. -/
theorem collect_start_multiplicity_spec_witness :
    ((∃ s, collectPackageNames cycGraph expandAll ["a", "a", "b"] = .ok s)
      ↔ (∃ s, collectPackageNames cycGraph expandAll ["a", "b"] = .ok s))
    ∧ (∀ s1 s2, collectPackageNames cycGraph expandAll ["a", "a", "b"] = .ok s1 →
        collectPackageNames cycGraph expandAll ["a", "b"] = .ok s2 → s1 = s2) :=
  collect_start_multiplicity_spec cycGraph expandAll ["a", "a", "b"] ["a", "b"] (by decide)
